import Mathlib

/-!
Verification of the binary-sequence compressibility analysis engine
(`stats-study-guide/scripts`): transition streams, run-length segmentation,
Huffman prefix-code construction, grouped coding, Golomb/unary coding, and
the concrete bit-accounting pipelines.

Conventions of the embedding:
* Python lists become `List`; the transition/error bit `1`/`0` becomes
  `true`/`false`; bitstrings such as `"010"` become `List Bool`.
* Python dicts (frequency tables, code tables) become association lists in
  insertion order; lookup is `List.find?` on the key.
* Fallible operations (division by zero, dict `KeyError`) return `Option`.
* Loops whose iteration count is bounded by the length of a shrinking list
  are embedded with an explicit fuel argument equal to that bound.
-/

set_option linter.unusedVariables false
set_option linter.unusedSectionVars false

variable {α : Type} [DecidableEq α] {β : Type} [DecidableEq β]

/-- Embeds `to_bits` (compression_analysis.py line 37): H becomes `true` (1),
T becomes `false` (0). -/
def toBits (flips : List Char) : List Bool :=
  flips.map (fun c => c = 'H')

/-- Embeds `to_transitions` (runlength_huffman.py line 26, huffman_compression.py
line 28, advanced_compression.py line 24) and the identical `get_transitions`
(compression_analysis.py line 42):
`[1 if flips[i] != flips[i-1] else 0 for i in range(1, len(flips))]`.
The Python comparison is generic over the element type, so the embedding is
polymorphic; indices `i` and `i-1` are always in bounds, so the `Option`-valued
index comparison agrees with the Python element comparison. -/
def toTransitions (flips : List α) : List Bool :=
  (List.range' 1 (flips.length - 1)).map (fun i => decide (flips[i]? ≠ flips[i-1]?))

/-- Loop body of `get_runs`: the accumulator `acc` holds the finished runs,
`val`/`len` the run currently being extended (source: runlength_huffman.py
lines 36-47, advanced_compression.py lines 31-41, and the identical
`run_length_encode` in compression_analysis.py lines 93-106). -/
def getRunsAux (val : α) (len : Nat) (acc : List (α × Nat)) : List α → List (α × Nat)
  | [] => acc ++ [(val, len)]
  | b :: rest =>
    if b = val then getRunsAux val (len + 1) acc rest
    else getRunsAux b 1 (acc ++ [(val, len)]) rest

/-- Embeds `get_runs` (runlength_huffman.py line 31, advanced_compression.py
line 28) and `run_length_encode` (compression_analysis.py line 84): maximal
runs as (value, length) pairs; empty input yields no runs. -/
def getRuns : List α → List (α × Nat)
  | [] => []
  | b :: rest => getRunsAux b 1 [] rest

/-- Concatenation of each run's value repeated its length, in order (the
reconstruction used by the spec's run-reconstruction property). -/
def expandRuns (runs : List (α × Nat)) : List α :=
  (runs.map (fun r => List.replicate r.2 r.1)).flatten

/-- Huffman tree node, embedding the `HuffmanNode`/`Node` classes
(huffman_compression.py line 42, runlength_huffman.py line 51,
advanced_compression.py line 51): a merged node always has both children and
symbol `None`; a leaf has a symbol and no children. -/
inductive HTree (α : Type) where
  | leaf (sym : α) (freq : Nat)
  | node (freq : Nat) (l r : HTree α)

/-- The `freq` field used by the heap ordering (`__lt__` compares `freq`). -/
def HTree.freq : HTree α → Nat
  | .leaf _ f => f
  | .node f _ _ => f

/-- Symbols at the leaves of a Huffman tree, left to right. -/
def HTree.syms : HTree α → List α
  | .leaf s _ => [s]
  | .node _ l r => l.syms ++ r.syms

/-- Symbols carried by a whole heap of trees. -/
def heapSyms (heap : List (HTree α)) : List α :=
  (heap.map HTree.syms).flatten

/-- Embeds `heapq.heappop` on the node heap: removes a node of minimal `freq`.
The source's comparator orders nodes by `freq` only, so the order among
equal-frequency nodes is unspecified by the source; the embedding removes the
first node attaining the minimum. Every verified property is independent of
that tie order. -/
def popMin : List (HTree α) → Option (HTree α × List (HTree α))
  | [] => none
  | t :: ts =>
    match popMin ts with
    | none => some (t, [])
    | some (m, rest) => if t.freq ≤ m.freq then some (t, ts) else some (m, t :: rest)

/-- The merge loop `while len(heap) > 1: pop two minima, push their parent`
(huffman_compression.py lines 58-64, runlength_huffman.py lines 71-77,
advanced_compression.py lines 63-68). Each iteration shrinks the heap by one,
so fuel `heap.length` bounds the iteration count. -/
def buildLoopAux : Nat → List (HTree α) → List (HTree α)
  | 0, heap => heap
  | fuel + 1, heap =>
    match popMin heap with
    | none => heap
    | some (t1, rest1) =>
      match popMin rest1 with
      | none => heap
      | some (t2, rest2) => buildLoopAux fuel (HTree.node (t1.freq + t2.freq) t1 t2 :: rest2)

/-- The heap after the merge loop finishes. -/
def buildLoop (heap : List (HTree α)) : List (HTree α) :=
  buildLoopAux heap.length heap

/-- Embeds `build_huffman_tree` (huffman_compression.py line 53): heapify the
leaves, run the merge loop, then `return heap[0] if heap else None`. -/
def buildHuffmanTree (freq : List (α × Nat)) : Option (HTree α) :=
  match buildLoop (freq.map (fun p => HTree.leaf p.1 p.2)) with
  | t :: _ => some t
  | [] => none

/-- Embeds `extract_codes`/`get_huffman_codes` (huffman_compression.py
lines 69-82, runlength_huffman.py lines 79-89, advanced_compression.py
lines 70-80): walk the tree accumulating `"0"` on the left edge and `"1"` on
the right edge; a leaf receives its accumulated path, or `"0"` when the path
is empty (single-leaf tree). Merged nodes always have both children, so the
source's `if node.left:`/`if node.right:` guards always pass. -/
def extractCodes : HTree α → List Bool → List (α × List Bool)
  | .leaf s _, pre => [(s, if pre.isEmpty then [false] else pre)]
  | .node _ l r, pre => extractCodes l (pre ++ [false]) ++ extractCodes r (pre ++ [true])

/-- Code table extracted from a finished tree (`get_huffman_codes(tree)` with
the empty starting path). -/
def getHuffmanCodes (t : HTree α) : List (α × List Bool) :=
  extractCodes t []

/-- Embeds `build_huffman_codes` (runlength_huffman.py lines 61-91,
advanced_compression.py lines 45-82, the two are identical): empty frequency
table gives an empty code table, a single-symbol table gives code `"0"`,
otherwise build the tree by the merge loop and extract codes from `heap[0]`. -/
def buildHuffmanCodes (freq : List (α × Nat)) : List (α × List Bool) :=
  match freq with
  | [] => []
  | [(s, _)] => [(s, [false])]
  | _ =>
    match buildLoop (freq.map (fun p => HTree.leaf p.1 p.2)) with
    | t :: _ => extractCodes t []
    | [] => []

/-- Code-table lookup `codes[s]`: the first entry with key `s`, if any. -/
def lookupCode (codes : List (α × List Bool)) (s : α) : Option (List Bool) :=
  (codes.find? (fun e => decide (e.1 = s))).map Prod.snd

/-- Embeds `huffman_encode` (huffman_compression.py line 85):
`''.join(codes[s] for s in symbols)`; a symbol absent from the table raises
`KeyError` in the source (the spec's `AlphabetError`), embedded as `none`. -/
def huffmanEncode (symbols : List α) (codes : List (α × List Bool)) : Option (List Bool) :=
  match symbols with
  | [] => some []
  | s :: rest =>
    match lookupCode codes s, huffmanEncode rest codes with
    | some c, some e => some (c ++ e)
    | _, _ => none

/-- Modelled from the spec: the repository contains no decoder, only
`huffman_encode`; spec §4.6 Decode walks the tree bit by bit, emitting a
symbol and resetting to the root at each leaf. One root-to-leaf walk is one
codeword, so a single step strips the unique codeword that starts the
remaining bits: find the first table entry whose (nonempty) code is a prefix
of the bits and return its symbol with the rest of the bits. -/
def decodeStep (codes : List (α × List Bool)) (bits : List Bool) : Option (α × List Bool) :=
  match codes with
  | [] => none
  | (s, c) :: rest =>
    if c ≠ [] ∧ c.isPrefixOf bits then some (s, bits.drop c.length)
    else decodeStep rest bits

/-- Modelled from the spec: spec §4.6 Decode, iterated until the bits are
exhausted; a failing step is the spec's `MalformedStreamError`, embedded as
`none`. Every emitted symbol consumes at least one bit, so fuel equal to the
number of bits bounds the iteration count. -/
def decodeAux (codes : List (α × List Bool)) : Nat → List Bool → Option (List α)
  | _, [] => some []
  | 0, _ :: _ => none
  | fuel + 1, b :: bs =>
    match decodeStep codes (b :: bs) with
    | none => none
    | some (s, rest) => (decodeAux codes fuel rest).map (fun l => s :: l)

/-- Modelled from the spec: spec §4.6 Decode of a complete bitstring. -/
def decodeTable (codes : List (α × List Bool)) (bits : List Bool) : Option (List α) :=
  decodeAux codes bits.length bits

/-- One `Counter` update: increment the count of `a`, appending a fresh entry
when `a` is new (Python `collections.Counter` keeps first-insertion order). -/
def addCount : List (α × Nat) → α → List (α × Nat)
  | [], a => [(a, 1)]
  | (b, n) :: rest, a =>
    if a = b then (b, n + 1) :: rest else (b, n) :: addCount rest a

/-- Embeds `collections.Counter` on a list of symbols. -/
def counter (l : List α) : List (α × Nat) :=
  l.foldl addCount []

/-- Bit length `len(codes[s])` of the codeword for `s`; `none` on `KeyError`. -/
def codeLen (codes : List (β × List Bool)) (s : β) : Option Nat :=
  (lookupCode codes s).map List.length

/-- Total coded size of a symbol sequence under a code table; `none` if any
symbol is missing from the table (`KeyError`). -/
def sumCodeLens (codes : List (β × List Bool)) : List β → Option Nat
  | [] => some 0
  | s :: rest =>
    match codeLen codes s, sumCodeLens codes rest with
    | some a, some b => some (a + b)
    | _, _ => none

/-- Embeds the bit-accounting core of `analyze_compression`
(runlength_huffman.py lines 94-197): transitions, runs, one Huffman table for
all run lengths, and `encoded_bits = 2 + sum(len(run_codes[length]))`
(1 bit for the first flip plus 1 bit for the first run type, lines 161-169).
Returns (encoded bits, compression ratio, savings percent). When the
transition stream is empty the source raises `ZeroDivisionError` at
`alt_rate = ones / t_len` (line 107), embedded as `none`. The source's
printed floating-point entropy statistics are reporting only and are not part
of the returned bit accounting embedded here. -/
def analyzeCompression (flips : List α) : Option (Nat × ℚ × ℚ) :=
  let n := flips.length
  let transitions := toTransitions flips
  if transitions.isEmpty then none
  else
    let runs := getRuns transitions
    let runCodes := buildHuffmanCodes (counter (runs.map Prod.snd))
    match sumCodeLens runCodes (runs.map Prod.snd) with
    | none => none
    | some dataBits =>
      let encodedBits := 2 + dataBits
      let ratio : ℚ := (encodedBits : ℚ) / (n : ℚ)
      some (encodedBits, ratio, (1 - ratio) * 100)

/-- Loop body shared by the grouped methods of `analyze_sequence`
(advanced_compression.py lines 114-192, unrolled there for k = 2..6):
`while i < len(l) - (k-1): emit l[i:i+k]; i += k` emits the full chunks of
size `k` in order. Each iteration removes `k ≥ 1` elements, so fuel
`l.length` bounds the iteration count. -/
def groupChunksAux (k : Nat) : Nat → List β → List (List β)
  | 0, _ => []
  | fuel + 1, l =>
    if k = 0 ∨ l.length < k then [] else l.take k :: groupChunksAux k fuel (l.drop k)

/-- The grouped tuples: `floor(count/k)` chunks of `k` consecutive elements. -/
def groupChunks (k : Nat) (l : List β) : List (List β) :=
  groupChunksAux k l.length l

/-- The leftover runs after grouping at size `k`: `runs[-(len(runs) % k):]`
when `len(runs) % k != 0`, else `[]` (advanced_compression.py lines 119, 136,
152, 168, 184; at k = 2 the source keeps the single leftover run in an
`Option`, which codes the same bits as this one-element list). -/
def leftoverRuns (k : Nat) (runs : List (α × Nat)) : List (α × Nat) :=
  runs.drop (runs.length - runs.length % k)

/-- Per-run coded size with separate tables for 1-runs and 0-runs:
`len(codes_1[length]) if val == 1 else len(codes_0[length])` summed
(advanced_compression.py lines 109-110, 126-127, 142-143, ...). -/
def leftoverBits (codes1 codes0 : List (Nat × List Bool)) : List (Bool × Nat) → Option Nat
  | [] => some 0
  | (v, len) :: rest =>
    match codeLen (if v then codes1 else codes0) len, leftoverBits codes1 codes0 rest with
    | some a, some b => some (a + b)
    | _, _ => none

/-- Bit count of one grouped method of `analyze_sequence`: 2 header bits, a
Huffman table over the k-tuples of run lengths, and the leftover runs coded
by the per-value tables. -/
def groupedMethodBits (codes1 codes0 : List (Nat × List Bool))
    (runs : List (Bool × Nat)) (k : Nat) : Option Nat :=
  let tuples := groupChunks k (runs.map Prod.snd)
  let tupleCodes := buildHuffmanCodes (counter tuples)
  match sumCodeLens tupleCodes tuples, leftoverBits codes1 codes0 (leftoverRuns k runs) with
  | some a, some b => some (2 + a + b)
  | _, _ => none

/-- Embeds the bit-accounting core of `analyze_sequence`
(advanced_compression.py lines 85-194): transitions, runs, per-value Huffman
tables, then the six methods (separate, and grouped at k = 2..6), returning
their bit counts in source order. When the transition stream is empty the
source raises `ZeroDivisionError` at
`'alt_rate': sum(transitions) / len(transitions)` (line 100), embedded as
`none`. -/
def analyzeSequence (flips : List α) : Option (List Nat) :=
  let transitions := toTransitions flips
  if transitions.isEmpty then none
  else
    let runs := getRuns transitions
    let codes1 := buildHuffmanCodes (counter ((runs.filter (fun r => r.1)).map Prod.snd))
    let codes0 := buildHuffmanCodes (counter ((runs.filter (fun r => !r.1)).map Prod.snd))
    (leftoverBits codes1 codes0 runs).bind fun sepBits =>
    (groupedMethodBits codes1 codes0 runs 2).bind fun m2 =>
    (groupedMethodBits codes1 codes0 runs 3).bind fun m3 =>
    (groupedMethodBits codes1 codes0 runs 4).bind fun m4 =>
    (groupedMethodBits codes1 codes0 runs 5).bind fun m5 =>
    (groupedMethodBits codes1 codes0 runs 6).map fun m6 =>
      [2 + sepBits, m2, m3, m4, m5, m6]

/-- Ceiling base-2 logarithm, computed structurally with fuel: the recursion
`ceil_log2 m = ceil_log2 (ceil (m / 2)) + 1` for `m ≥ 2` halves `m`, so fuel
`m` bounds the depth. Proved equal to `Nat.clog 2` below. -/
def ceilLog2Aux : Nat → Nat → Nat
  | 0, _ => 0
  | fuel + 1, m => if m ≤ 1 then 0 else ceilLog2Aux fuel ((m + 1) / 2) + 1

/-- Ceiling base-2 logarithm (the value of Python `math.ceil(math.log2 m)` for
`m ≥ 1`). -/
def ceilLog2 (m : Nat) : Nat :=
  ceilLog2Aux m m

/-- Binary digits of `r`, most significant first, zero-padded on the left to
`width` digits: the embedding of Python `format(r, f'0{width}b')` on the
reachable inputs, where `r < 2 ^ width` always holds. -/
def natToBits (width r : Nat) : List Bool :=
  (List.range width).map (fun i => r.testBit (width - 1 - i))

/-- Numeric value of a most-significant-first bit list. -/
def bitsVal (bits : List Bool) : Nat :=
  bits.foldl (fun acc b => 2 * acc + b.toNat) 0

/-- Embeds `encode_run_length_golomb` (compression_analysis.py lines 114-137):
quotient `q = (length-1) // m` in unary (`q` ones then a zero), then the
remainder `r = (length-1) % m` in a fixed-width binary field of
`ceil(log2 m)` bits for `m > 1` and of 1 bit for `m = 1`. Python's
`math.ceil(math.log2(m))` is `ceilLog2 m`. -/
def golombEncode (length m : Nat) : List Bool :=
  let q := (length - 1) / m
  let r := (length - 1) % m
  let b := if 1 < m then ceilLog2 m else 1
  List.replicate q true ++ [false] ++ natToBits b r

/-- Embeds the error stream of `prediction_encode` (compression_analysis.py
lines 47-81): predict every flip differs from its predecessor;
`errors = [0 if t == 1 else 1 for t in transitions]`, i.e. the pointwise
complement of the transition stream of `to_bits(flips)`. -/
def predictionEncode (flips : List Char) : List Bool :=
  (toTransitions (toBits flips)).map (fun t => !t)

/-- The prefix-freeness relation between two code-table entries: neither
codeword is a prefix of the other. -/
def noOverlap (a b : α × List Bool) : Prop :=
  ¬ a.2 <+: b.2 ∧ ¬ b.2 <+: a.2

/-! ## Run-length segmentation -/

theorem expandRuns_append (xs ys : List (α × Nat)) :
    expandRuns (xs ++ ys) = expandRuns xs ++ expandRuns ys := by
  simp [expandRuns]

theorem expandRuns_length (rs : List (α × Nat)) :
    (expandRuns rs).length = ((rs.map Prod.snd).sum) := by
  simp only [expandRuns, List.length_flatten, List.map_map]
  have h : (List.length ∘ fun r : α × Nat => List.replicate r.2 r.1) = Prod.snd :=
    funext fun r => List.length_replicate r.2 r.1
  rw [h]

theorem getRunsAux_expand (rest : List α) :
    ∀ (val : α) (len : Nat) (acc : List (α × Nat)),
      expandRuns (getRunsAux val len acc rest) =
        expandRuns acc ++ List.replicate len val ++ rest := by
  induction rest with
  | nil =>
    intro val len acc
    rw [getRunsAux, expandRuns_append]
    simp [expandRuns]
  | cons b rest ih =>
    intro val len acc
    by_cases hb : b = val
    · subst hb
      rw [getRunsAux, if_pos rfl, ih]
      rw [List.replicate_succ' len b]
      simp
    · rw [getRunsAux, if_neg hb, ih, expandRuns_append]
      simp [expandRuns]

theorem getRuns_expand (T : List α) : expandRuns (getRuns T) = T := by
  cases T with
  | nil => rfl
  | cons b rest =>
    rw [getRuns, getRunsAux_expand]
    simp [expandRuns]

theorem getRunsAux_wf (rest : List α) :
    ∀ (val : α) (len : Nat) (acc : List (α × Nat)),
      1 ≤ len →
      acc.Chain' (fun a b => a.1 ≠ b.1) →
      (∀ r ∈ acc, 1 ≤ r.2) →
      (∀ x ∈ acc.getLast?, x.1 ≠ val) →
      (getRunsAux val len acc rest).Chain' (fun a b => a.1 ≠ b.1) ∧
        ∀ r ∈ getRunsAux val len acc rest, 1 ≤ r.2 := by
  induction rest with
  | nil =>
    intro val len acc hlen hchain hpos hlast
    rw [getRunsAux]
    constructor
    · rw [List.chain'_append]
      refine ⟨hchain, List.chain'_singleton _, ?_⟩
      intro x hx y hy
      simp at hy
      subst hy
      exact hlast x hx
    · intro r hr
      rcases List.mem_append.mp hr with h | h
      · exact hpos r h
      · simp at h; subst h; exact hlen
  | cons b rest ih =>
    intro val len acc hlen hchain hpos hlast
    by_cases hb : b = val
    · rw [getRunsAux, if_pos hb]
      exact ih val (len + 1) acc (by omega) hchain hpos hlast
    · rw [getRunsAux, if_neg hb]
      apply ih b 1 (acc ++ [(val, len)]) le_rfl
      · rw [List.chain'_append]
        refine ⟨hchain, List.chain'_singleton _, ?_⟩
        intro x hx y hy
        simp at hy
        subst hy
        exact hlast x hx
      · intro r hr
        rcases List.mem_append.mp hr with h | h
        · exact hpos r h
        · simp at h; subst h; exact hlen
      · intro x hx
        rw [List.getLast?_concat] at hx
        simp at hx
        subst hx
        exact fun h => hb h.symm

theorem getRuns_wf (T : List α) :
    (getRuns T).Chain' (fun a b => a.1 ≠ b.1) ∧ ∀ r ∈ getRuns T, 1 ≤ r.2 := by
  cases T with
  | nil => exact ⟨List.chain'_nil, by intro r hr; simp [getRuns] at hr⟩
  | cons b rest =>
    exact getRunsAux_wf rest b 1 [] le_rfl List.chain'_nil (by simp) (by simp)

/-- C3: for every boolean stream, run-length segmentation yields runs with no
two adjacent runs sharing a value, every run length at least 1, run lengths
summing to the stream length, and whose value-by-length expansion
reconstructs the stream exactly. -/
theorem getRuns_spec (T : List Bool) :
    (getRuns T).Chain' (fun a b => a.1 ≠ b.1) ∧
    (∀ r ∈ getRuns T, 1 ≤ r.2) ∧
    ((getRuns T).map Prod.snd).sum = T.length ∧
    expandRuns (getRuns T) = T := by
  obtain ⟨h1, h2⟩ := getRuns_wf T
  have h4 := getRuns_expand T
  refine ⟨h1, h2, ?_, h4⟩
  rw [← expandRuns_length, h4]

/-- C3 witness: the positivity and reconstruction properties at a concrete
stream. -/
theorem getRuns_spec_witness :
    1 ≤ ((true, 2) : Bool × Nat).2 ∧
    expandRuns (getRuns [true, true, false]) = [true, true, false] :=
  ⟨(getRuns_spec [true, true, false]).2.1 (true, 2) (by decide),
    (getRuns_spec [true, true, false]).2.2.2⟩

/-! ## Transition encoder -/

/-- C9: for every bitstream of length n, the transition encoder returns a
stream of length n−1 (empty when n ≤ 1, not an error) whose element i is
true iff bitstream element i+1 differs from element i. -/
theorem toTransitions_spec (flips : List α) :
    (toTransitions flips).length = flips.length - 1 ∧
    (flips.length ≤ 1 → toTransitions flips = []) ∧
    ∀ i, i + 1 < flips.length →
      (toTransitions flips)[i]? = some (decide (flips[i + 1]? ≠ flips[i]?)) := by
  refine ⟨by simp [toTransitions], ?_, ?_⟩
  · intro h
    have h0 : flips.length - 1 = 0 := by omega
    simp [toTransitions, h0]
  · intro i hi
    have h1 : i < flips.length - 1 := by omega
    rw [toTransitions, List.getElem?_map]
    simp only [List.getElem?_range', h1, if_true, Option.map_some']
    have e1 : 1 + 1 * i = i + 1 := by omega
    rw [e1]
    simp

/-- C9 witness: concrete instance of the index characterization. -/
theorem toTransitions_spec_witness :
    (toTransitions [true, true, false]).length = 2 ∧
    (toTransitions [true, true, false])[1]? = some true :=
  ⟨(toTransitions_spec [true, true, false]).1,
    ((toTransitions_spec [true, true, false]).2.2 1 (by decide)).trans (by decide)⟩

/-! ## Prediction-based variant (compression_analysis.py) -/

theorem getRunsAux_map (f : α → β) (hf : ∀ x y, f x = f y → x = y) (rest : List α) :
    ∀ (val : α) (len : Nat) (acc : List (α × Nat)),
      getRunsAux (f val) len (acc.map (fun r => (f r.1, r.2))) (rest.map f) =
        (getRunsAux val len acc rest).map (fun r => (f r.1, r.2)) := by
  induction rest with
  | nil =>
    intro val len acc
    simp only [List.map_nil]
    rw [getRunsAux, getRunsAux]
    simp
  | cons b rest ih =>
    intro val len acc
    by_cases hb : b = val
    · subst hb
      rw [List.map_cons, getRunsAux, if_pos rfl, getRunsAux, if_pos rfl]
      exact ih b (len + 1) acc
    · have hfb : f b ≠ f val := fun h => hb (hf _ _ h)
      rw [List.map_cons, getRunsAux, if_neg hfb, getRunsAux, if_neg hb]
      rw [← ih b 1 (acc ++ [(val, len)])]
      simp

theorem getRuns_map (f : α → β) (hf : ∀ x y, f x = f y → x = y) (l : List α) :
    getRuns (l.map f) = (getRuns l).map (fun r => (f r.1, r.2)) := by
  cases l with
  | nil => rfl
  | cons b rest =>
    rw [List.map_cons, getRuns, getRuns]
    rw [← getRunsAux_map f hf rest b 1 []]
    rfl

/-- C10: for every input of length ≥ 2, the prediction-based error stream is
the pointwise boolean complement of the transition stream of the same
bitstream, and its runs are exactly the transition stream's runs with each
run value negated (identical boundaries and lengths, values swapped). -/
theorem predictionEncode_spec (flips : List Char) (h : 2 ≤ flips.length) :
    predictionEncode flips = (toTransitions (toBits flips)).map (fun t => !t) ∧
    getRuns (predictionEncode flips) =
      (getRuns (toTransitions (toBits flips))).map (fun r => (!r.1, r.2)) := by
  refine ⟨rfl, ?_⟩
  rw [predictionEncode]
  exact getRuns_map (fun t => !t) (fun x y hxy => by
    cases x <;> cases y <;> simp_all) _

/-- C10 witness: the round-trip of the complement relation at a concrete
input. -/
theorem predictionEncode_spec_witness :
    2 ≤ (['H', 'T', 'T'] : List Char).length ∧
    (predictionEncode ['H', 'T', 'T'] =
        (toTransitions (toBits ['H', 'T', 'T'])).map (fun t => !t) ∧
      getRuns (predictionEncode ['H', 'T', 'T']) =
        (getRuns (toTransitions (toBits ['H', 'T', 'T']))).map (fun r => (!r.1, r.2))) :=
  ⟨by decide, predictionEncode_spec ['H', 'T', 'T'] (by decide)⟩

/-! ## Grouping with leftover -/

theorem groupChunksAux_flatten (k : Nat) (hk : k ≠ 0) :
    ∀ (fuel : Nat) (l : List β), l.length ≤ fuel →
      (groupChunksAux k fuel l).flatten ++ l.drop (l.length - l.length % k) = l := by
  intro fuel
  induction fuel with
  | zero =>
    intro l hl
    have h0 : l = [] := List.length_eq_zero.mp (by omega)
    subst h0
    simp [groupChunksAux]
  | succ fuel ih =>
    intro l hl
    rw [groupChunksAux]
    by_cases h : l.length < k
    · rw [if_pos (Or.inr h)]
      have hmod : l.length % k = l.length := Nat.mod_eq_of_lt h
      simp [hmod]
    · rw [if_neg (by omega)]
      have hkpos : 0 < k := Nat.pos_of_ne_zero hk
      have hk2 : k ≤ l.length := by omega
      have hmodlt : l.length % k < k := Nat.mod_lt _ hkpos
      have hdm := Nat.div_add_mod l.length k
      have hq : 1 ≤ l.length / k := (Nat.one_le_div_iff hkpos).mpr hk2
      have hkd : k ≤ k * (l.length / k) := Nat.le_mul_of_pos_right k hq
      have hmodeq : (l.length - k) % k = l.length % k := by
        have h1 := Nat.add_mod_right (l.length - k) k
        rw [Nat.sub_add_cancel hk2] at h1
        exact h1.symm
      have hlen' : (l.drop k).length ≤ fuel := by simp; omega
      have ih' := ih (l.drop k) hlen'
      rw [List.length_drop, hmodeq, List.drop_drop] at ih'
      have harith : k + (l.length - k - l.length % k) = l.length - l.length % k := by omega
      rw [harith] at ih'
      rw [List.flatten_cons, List.append_assoc, ih']
      exact List.take_append_drop k l

theorem groupChunksAux_length (k : Nat) (hk : k ≠ 0) :
    ∀ (fuel : Nat) (l : List β), l.length ≤ fuel →
      (groupChunksAux k fuel l).length = l.length / k := by
  intro fuel
  induction fuel with
  | zero =>
    intro l hl
    have h0 : l = [] := List.length_eq_zero.mp (by omega)
    subst h0
    simp [groupChunksAux]
  | succ fuel ih =>
    intro l hl
    rw [groupChunksAux]
    by_cases h : l.length < k
    · rw [if_pos (Or.inr h)]
      simp [Nat.div_eq_of_lt h]
    · rw [if_neg (by omega)]
      have hkpos : 0 < k := Nat.pos_of_ne_zero hk
      have hk2 : k ≤ l.length := by omega
      have hlen' : (l.drop k).length ≤ fuel := by simp; omega
      rw [List.length_cons, ih (l.drop k) hlen', List.length_drop]
      rw [Nat.div_eq_sub_div hkpos hk2]

theorem groupChunksAux_mem (k : Nat) (hk : k ≠ 0) :
    ∀ (fuel : Nat) (l : List β), l.length ≤ fuel →
      ∀ c ∈ groupChunksAux k fuel l, c.length = k := by
  intro fuel
  induction fuel with
  | zero => intro l hl c hc; simp [groupChunksAux] at hc
  | succ fuel ih =>
    intro l hl c hc
    rw [groupChunksAux] at hc
    by_cases h : l.length < k
    · rw [if_pos (Or.inr h)] at hc; simp at hc
    · rw [if_neg (by omega)] at hc
      have hk2 : k ≤ l.length := by omega
      rcases List.mem_cons.mp hc with h1 | h1
      · subst h1; simp [List.length_take]; omega
      · exact ih (l.drop k) (by simp; omega) c h1

theorem leftoverRuns_length (k : Nat) (hk : k ≠ 0) (runs : List (α × Nat)) :
    (leftoverRuns k runs).length = runs.length % k := by
  have := Nat.mod_le runs.length k
  simp [leftoverRuns]
  omega

/-- C4: grouping a run sequence at size k (2 ≤ k ≤ 6, the unrolled methods of
analyze_sequence) emits floor(count/k) tuples of k consecutive run lengths in
order plus a leftover of the remaining count mod k runs, and the tuples'
elements followed by the leftover's lengths reproduce the original run-length
sequence exactly. -/
theorem grouping_spec (runs : List (Bool × Nat)) (k : Nat) (h2 : 2 ≤ k) (h6 : k ≤ 6) :
    (groupChunks k (runs.map Prod.snd)).length = runs.length / k ∧
    (∀ c ∈ groupChunks k (runs.map Prod.snd), c.length = k) ∧
    (leftoverRuns k runs).length = runs.length % k ∧
    (groupChunks k (runs.map Prod.snd)).flatten ++ (leftoverRuns k runs).map Prod.snd =
      runs.map Prod.snd := by
  have hk : k ≠ 0 := by omega
  refine ⟨?_, ?_, leftoverRuns_length k hk runs, ?_⟩
  · rw [groupChunks, groupChunksAux_length k hk _ _ le_rfl, List.length_map]
  · exact groupChunksAux_mem k hk _ _ le_rfl
  · have hmap : (leftoverRuns k runs).map Prod.snd =
        (runs.map Prod.snd).drop
          ((runs.map Prod.snd).length - (runs.map Prod.snd).length % k) := by
      rw [List.length_map, leftoverRuns]
      exact List.map_drop ..
    rw [hmap]
    exact groupChunksAux_flatten k hk _ _ le_rfl

/-- C4 witness: grouping three runs at k = 2. -/
theorem grouping_spec_witness :
    ((2 : Nat) ≤ 2 ∧ (2 : Nat) ≤ 6) ∧
    ((groupChunks 2 (([(true, 3), (false, 1), (true, 2)] : List (Bool × Nat)).map Prod.snd)).length
        = ([(true, 3), (false, 1), (true, 2)] : List (Bool × Nat)).length / 2 ∧
      (∀ c ∈ groupChunks 2 (([(true, 3), (false, 1), (true, 2)] : List (Bool × Nat)).map Prod.snd),
        c.length = 2) ∧
      (leftoverRuns 2 ([(true, 3), (false, 1), (true, 2)] : List (Bool × Nat))).length
        = ([(true, 3), (false, 1), (true, 2)] : List (Bool × Nat)).length % 2 ∧
      (groupChunks 2 (([(true, 3), (false, 1), (true, 2)] : List (Bool × Nat)).map Prod.snd)).flatten
          ++ (leftoverRuns 2 ([(true, 3), (false, 1), (true, 2)] : List (Bool × Nat))).map Prod.snd
        = ([(true, 3), (false, 1), (true, 2)] : List (Bool × Nat)).map Prod.snd) :=
  ⟨⟨le_rfl, by omega⟩, grouping_spec [(true, 3), (false, 1), (true, 2)] 2 le_rfl (by omega)⟩

/-! ## Golomb/unary coding -/

theorem ceilLog2Aux_eq (fuel : Nat) :
    ∀ m, m ≤ fuel → ceilLog2Aux fuel m = Nat.clog 2 m := by
  induction fuel with
  | zero =>
    intro m hm
    have h0 : m = 0 := by omega
    subst h0
    rw [ceilLog2Aux, Nat.clog_of_right_le_one (by omega)]
  | succ fuel ih =>
    intro m hm
    rw [ceilLog2Aux]
    by_cases h1 : m ≤ 1
    · rw [if_pos h1, Nat.clog_of_right_le_one h1]
    · rw [if_neg h1]
      have h2 : 2 ≤ m := by omega
      have hrec : (m + 1) / 2 ≤ fuel := by omega
      rw [ih _ hrec]
      have h := Nat.clog_of_two_le (b := 2) (by norm_num) h2
      simpa using h.symm

theorem ceilLog2_eq_clog (m : Nat) : ceilLog2 m = Nat.clog 2 m :=
  ceilLog2Aux_eq m m le_rfl

theorem natToBits_length (width r : Nat) : (natToBits width r).length = width := by
  simp [natToBits]

theorem natToBits_cons (width r : Nat) :
    natToBits (width + 1) r = r.testBit width :: natToBits width r := by
  simp only [natToBits, List.range_succ_eq_map, List.map_cons, List.map_map]
  refine List.cons_eq_cons.mpr ⟨by simp, ?_⟩
  apply List.map_congr_left
  intro i hi
  simp only [Function.comp_apply]
  congr 1
  omega

theorem bitsVal_foldl (bits : List Bool) :
    ∀ acc : Nat, bits.foldl (fun a b => 2 * a + b.toNat) acc =
      acc * 2 ^ bits.length + bitsVal bits := by
  induction bits with
  | nil => intro acc; simp [bitsVal]
  | cons b bs ih =>
    intro acc
    rw [List.foldl_cons]
    rw [ih]
    have hb : bitsVal (b :: bs) = b.toNat * 2 ^ bs.length + bitsVal bs := by
      rw [bitsVal, List.foldl_cons]
      have := ih (2 * 0 + b.toNat)
      simpa [bitsVal] using this
    rw [hb, List.length_cons, pow_succ]
    ring

theorem bitsVal_natToBits (width r : Nat) :
    bitsVal (natToBits width r) = r % 2 ^ width := by
  induction width with
  | zero => simp [natToBits, bitsVal, Nat.mod_one]
  | succ w ih =>
    rw [natToBits_cons]
    have hb : bitsVal (r.testBit w :: natToBits w r) =
        (r.testBit w).toNat * 2 ^ w + bitsVal (natToBits w r) := by
      rw [bitsVal, List.foldl_cons]
      have := bitsVal_foldl (natToBits w r) (2 * 0 + (r.testBit w).toNat)
      simpa [natToBits_length, bitsVal] using this
    rw [hb, ih, Nat.testBit_to_div_mod, pow_succ, Nat.mod_mul]
    have h2 : r / 2 ^ w % 2 = 0 ∨ r / 2 ^ w % 2 = 1 := by omega
    rcases h2 with h | h
    · rw [h]; simp
    · rw [h]; simp; omega

theorem takeWhile_replicate_true (q : Nat) (rest : List Bool) :
    (List.replicate q true ++ false :: rest).takeWhile (fun x => x) =
      List.replicate q true := by
  induction q with
  | zero => simp [List.takeWhile_cons]
  | succ q ih => simp [List.replicate_succ, List.takeWhile_cons, ih]

/-- C5 counterexample: at divisor m = 1 and run length ℓ = 1 the source emits
a codeword of length 2 (the remainder field is 1 bit wide even though
⌈log2 1⌉ = 0), so the claimed length q + 1 + ⌈log2 m⌉ = 1 fails. -/
theorem golombEncode_m1_counterexample :
    ¬ ((golombEncode 1 1).length = (1 - 1) / 1 + 1 + Nat.clog 2 1) := by
  have h : Nat.clog 2 1 = 0 := Nat.clog_of_right_le_one le_rfl 2
  rw [h]
  decide

/-- C5 (amended): for ℓ ≥ 1 and m ≥ 1 the Golomb encoder emits exactly
q = (ℓ−1) div m ones, then a single zero, then r = (ℓ−1) mod m in a
fixed-width field of max(1, ⌈log2 m⌉) bits, so the codeword has length
q + 1 + max(1, ⌈log2 m⌉); the width is ⌈log2 m⌉ exactly when m ≥ 2. -/
theorem golombEncode_spec (L m : Nat) (hL : 1 ≤ L) (hm : 1 ≤ m) :
    ((golombEncode L m).takeWhile (fun x => x)).length = (L - 1) / m ∧
    (golombEncode L m)[(L - 1) / m]? = some false ∧
    ((golombEncode L m).drop ((L - 1) / m + 1)).length = max 1 (Nat.clog 2 m) ∧
    bitsVal ((golombEncode L m).drop ((L - 1) / m + 1)) = (L - 1) % m ∧
    (golombEncode L m).length = (L - 1) / m + 1 + max 1 (Nat.clog 2 m) := by
  have hbm : (if 1 < m then ceilLog2 m else 1) = max 1 (Nat.clog 2 m) := by
    by_cases h : 1 < m
    · rw [if_pos h, ceilLog2_eq_clog]
      have h1 : 1 ≤ Nat.clog 2 m := Nat.clog_pos (by norm_num) h
      omega
    · have hm1 : m = 1 := by omega
      subst hm1
      rw [if_neg h, Nat.clog_of_right_le_one le_rfl]
      omega
  have hcode : golombEncode L m =
      List.replicate ((L - 1) / m) true ++
        false :: natToBits (max 1 (Nat.clog 2 m)) ((L - 1) % m) := by
    rw [golombEncode]
    simp only [hbm, List.append_assoc, List.singleton_append]
  have hrlt : (L - 1) % m < 2 ^ max 1 (Nat.clog 2 m) := by
    have hmod : (L - 1) % m < m := Nat.mod_lt _ (by omega)
    by_cases h : 1 < m
    · have h1 : m ≤ 2 ^ Nat.clog 2 m := Nat.le_pow_clog (by norm_num) m
      have h2 : (2 : Nat) ^ Nat.clog 2 m ≤ 2 ^ max 1 (Nat.clog 2 m) :=
        Nat.pow_le_pow_right (by norm_num) (le_max_right _ _)
      omega
    · have hm1 : m = 1 := by omega
      subst hm1
      rw [Nat.clog_of_right_le_one le_rfl]
      have h0 : (L - 1) % 1 = 0 := Nat.mod_one _
      rw [h0]
      simp
  have hdrop : (golombEncode L m).drop ((L - 1) / m + 1) =
      natToBits (max 1 (Nat.clog 2 m)) ((L - 1) % m) := by
    rw [hcode]
    have hlen : (List.replicate ((L - 1) / m) true ++ [false]).length = (L - 1) / m + 1 := by
      simp
    calc (List.replicate ((L - 1) / m) true ++
            false :: natToBits (max 1 (Nat.clog 2 m)) ((L - 1) % m)).drop ((L - 1) / m + 1)
        = ((List.replicate ((L - 1) / m) true ++ [false]) ++
            natToBits (max 1 (Nat.clog 2 m)) ((L - 1) % m)).drop
              ((List.replicate ((L - 1) / m) true ++ [false]).length) := by
          rw [hlen]; simp [List.append_assoc]
      _ = natToBits (max 1 (Nat.clog 2 m)) ((L - 1) % m) := List.drop_left _ _
  refine ⟨?_, ?_, ?_, ?_, ?_⟩
  · rw [hcode, takeWhile_replicate_true]
    simp
  · rw [hcode]
    rw [List.getElem?_append_right (by simp)]
    simp
  · rw [hdrop, natToBits_length]
  · rw [hdrop, bitsVal_natToBits, Nat.mod_eq_of_lt hrlt]
  · rw [hcode]
    simp [natToBits_length]
    omega

/-- C5 witness: ℓ = 5, m = 3 gives q = 1, r = 1 and a 2-bit remainder field. -/
theorem golombEncode_spec_witness :
    ((1 : Nat) ≤ 5 ∧ (1 : Nat) ≤ 3) ∧
    (((golombEncode 5 3).takeWhile (fun x => x)).length = (5 - 1) / 3 ∧
      (golombEncode 5 3)[(5 - 1) / 3]? = some false ∧
      ((golombEncode 5 3).drop ((5 - 1) / 3 + 1)).length = max 1 (Nat.clog 2 3) ∧
      bitsVal ((golombEncode 5 3).drop ((5 - 1) / 3 + 1)) = (5 - 1) % 3 ∧
      (golombEncode 5 3).length = (5 - 1) / 3 + 1 + max 1 (Nat.clog 2 3)) :=
  ⟨⟨by omega, by omega⟩, golombEncode_spec 5 3 (by omega) (by omega)⟩

/-! ## Huffman construction: heap lemmas -/

theorem popMin_none (l : List (HTree α)) (h : popMin l = none) : l = [] := by
  cases l with
  | nil => rfl
  | cons a ts =>
    rw [popMin] at h
    split at h
    · simp at h
    · split at h <;> simp at h

theorem popMin_perm (l : List (HTree α)) :
    ∀ (t : HTree α) (rest : List (HTree α)), popMin l = some (t, rest) →
      l.Perm (t :: rest) := by
  induction l with
  | nil => intro t rest h; simp [popMin] at h
  | cons a ts ih =>
    intro t rest h
    rw [popMin] at h
    split at h
    · rename_i hp
      simp at h
      obtain ⟨h1, h2⟩ := h
      subst h1; subst h2
      have h3 := popMin_none ts hp
      subst h3
      exact List.Perm.refl _
    · rename_i m r hp
      split at h
      · simp at h
        obtain ⟨h1, h2⟩ := h
        subst h1; subst h2
        exact List.Perm.refl _
      · simp at h
        obtain ⟨h1, h2⟩ := h
        subst h1; subst h2
        exact ((ih m r hp).cons a).trans (List.Perm.swap m a r)

theorem heapSyms_cons (t : HTree α) (rest : List (HTree α)) :
    heapSyms (t :: rest) = t.syms ++ heapSyms rest := by
  simp [heapSyms]

theorem heapSyms_perm {l₁ l₂ : List (HTree α)} (h : l₁.Perm l₂) :
    (heapSyms l₁).Perm (heapSyms l₂) :=
  List.Perm.flatten (h.map HTree.syms)

theorem buildLoopAux_syms (fuel : Nat) :
    ∀ heap : List (HTree α), (heapSyms (buildLoopAux fuel heap)).Perm (heapSyms heap) := by
  induction fuel with
  | zero => intro heap; exact List.Perm.refl _
  | succ fuel ih =>
    intro heap
    rw [buildLoopAux]
    split
    · exact List.Perm.refl _
    · rename_i t1 rest1 h1
      split
      · exact List.Perm.refl _
      · rename_i t2 rest2 h2
        have hp1 := heapSyms_perm (popMin_perm heap t1 rest1 h1)
        have hp2 := heapSyms_perm (popMin_perm rest1 t2 rest2 h2)
        rw [heapSyms_cons] at hp1 hp2
        apply (ih _).trans
        rw [heapSyms_cons]
        show ((t1.syms ++ t2.syms) ++ heapSyms rest2).Perm (heapSyms heap)
        rw [List.append_assoc]
        exact ((List.Perm.append_left t1.syms hp2.symm).trans hp1.symm)

theorem buildLoopAux_length (fuel : Nat) :
    ∀ heap : List (HTree α), heap ≠ [] → heap.length ≤ fuel + 1 →
      (buildLoopAux fuel heap).length = 1 := by
  induction fuel with
  | zero =>
    intro heap hne hlen
    have hpos := List.length_pos.mpr hne
    rw [buildLoopAux]
    omega
  | succ fuel ih =>
    intro heap hne hlen
    rw [buildLoopAux]
    split
    · rename_i h1
      exact absurd (popMin_none heap h1) hne
    · rename_i t1 rest1 h1
      split
      · rename_i h2
        have h3 := popMin_none rest1 h2
        subst h3
        have hl := (popMin_perm heap t1 [] h1).length_eq
        simp at hl
        exact hl
      · rename_i t2 rest2 h2
        apply ih
        · simp
        · have l1 := (popMin_perm heap t1 rest1 h1).length_eq
          have l2 := (popMin_perm rest1 t2 rest2 h2).length_eq
          simp at l1 l2 ⊢
          omega

theorem heapSyms_leaves (freq : List (α × Nat)) :
    heapSyms (freq.map (fun p => HTree.leaf p.1 p.2)) = freq.map Prod.fst := by
  induction freq with
  | nil => rfl
  | cons p rest ihf =>
    rw [List.map_cons, heapSyms_cons, List.map_cons, ihf]
    rfl

theorem buildLoop_singleton (freq : List (α × Nat)) (h : freq ≠ []) :
    ∃ t : HTree α, buildLoop (freq.map (fun p => HTree.leaf p.1 p.2)) = [t] ∧
      t.syms.Perm (freq.map Prod.fst) := by
  have hne : (freq.map (fun p => HTree.leaf p.1 p.2)) ≠ [] := by simp [h]
  have h1 := buildLoopAux_length (freq.map (fun p => HTree.leaf p.1 p.2)).length
    (freq.map (fun p => HTree.leaf p.1 p.2)) hne (by omega)
  rw [← buildLoop] at h1
  obtain ⟨t, ht⟩ : ∃ t, buildLoop (freq.map (fun p => HTree.leaf p.1 p.2)) = [t] := by
    cases hres : buildLoop (freq.map (fun p => HTree.leaf p.1 p.2)) with
    | nil => rw [hres] at h1; simp at h1
    | cons a l =>
      cases l with
      | nil => exact ⟨a, rfl⟩
      | cons b m => rw [hres] at h1; simp at h1
  refine ⟨t, ht, ?_⟩
  have hperm := buildLoopAux_syms (freq.map (fun p => HTree.leaf p.1 p.2)).length
    (freq.map (fun p => HTree.leaf p.1 p.2))
  rw [← buildLoop, ht] at hperm
  have e1 : heapSyms [t] = t.syms := by simp [heapSyms]
  rw [e1, heapSyms_leaves] at hperm
  exact hperm

theorem buildHuffmanTree_some (freq : List (α × Nat)) (h : freq ≠ []) :
    ∃ t, buildHuffmanTree freq = some t ∧ t.syms.Perm (freq.map Prod.fst) := by
  obtain ⟨t, ht, hp⟩ := buildLoop_singleton freq h
  refine ⟨t, ?_, hp⟩
  rw [buildHuffmanTree, ht]

/-! ## Huffman code extraction: prefix property -/

theorem extractCodes_keys (t : HTree α) :
    ∀ pre, (extractCodes t pre).map Prod.fst = t.syms := by
  induction t with
  | leaf s f => intro pre; simp [extractCodes, HTree.syms]
  | node f l r ihl ihr => intro pre; simp [extractCodes, HTree.syms, ihl, ihr]

theorem extractCodes_extends (t : HTree α) :
    ∀ pre, pre ≠ [] → ∀ e ∈ extractCodes t pre, pre <+: e.2 ∧ e.2 ≠ [] := by
  induction t with
  | leaf s f =>
    intro pre hpre e he
    have hie : pre.isEmpty = false := by
      cases pre with
      | nil => contradiction
      | cons a l => rfl
    rw [extractCodes, hie] at he
    simp at he
    subst he
    exact ⟨List.prefix_refl pre, hpre⟩
  | node f l r ihl ihr =>
    intro pre hpre e he
    rw [extractCodes] at he
    rcases List.mem_append.mp he with h | h
    · obtain ⟨hp, hne⟩ := ihl (pre ++ [false]) (by simp) e h
      exact ⟨(List.prefix_append pre [false]).trans hp, hne⟩
    · obtain ⟨hp, hne⟩ := ihr (pre ++ [true]) (by simp) e h
      exact ⟨(List.prefix_append pre [true]).trans hp, hne⟩

theorem cross_no (p : List Bool) (a b : Bool) (hab : a ≠ b) {x y : List Bool}
    (hx : p ++ [a] <+: x) (hy : p ++ [b] <+: y) : ¬ x <+: y := by
  intro hxy
  have h1 : p ++ [a] <+: y := hx.trans hxy
  have hlen : (p ++ [a]).length = (p ++ [b]).length := by simp
  rcases List.prefix_or_prefix_of_prefix h1 hy with h | h
  · have heq := h.eq_of_length hlen
    have := List.append_cancel_left heq
    simp at this
    exact hab this
  · have heq := h.eq_of_length hlen.symm
    have := List.append_cancel_left heq
    simp at this
    exact hab this.symm

theorem extractCodes_pairwise (t : HTree α) :
    ∀ pre, pre ≠ [] → (extractCodes t pre).Pairwise noOverlap := by
  induction t with
  | leaf s f => intro pre hpre; simp [extractCodes]
  | node f l r ihl ihr =>
    intro pre hpre
    rw [extractCodes]
    apply List.pairwise_append.mpr
    refine ⟨ihl _ (by simp), ihr _ (by simp), ?_⟩
    intro a ha b hb
    obtain ⟨hpa, _⟩ := extractCodes_extends l (pre ++ [false]) (by simp) a ha
    obtain ⟨hpb, _⟩ := extractCodes_extends r (pre ++ [true]) (by simp) b hb
    exact ⟨cross_no pre false true (by simp) hpa hpb,
      cross_no pre true false (by simp) hpb hpa⟩

theorem getHuffmanCodes_pairwise (t : HTree α) :
    (getHuffmanCodes t).Pairwise noOverlap := by
  cases t with
  | leaf s f => simp [getHuffmanCodes, extractCodes]
  | node f l r =>
    rw [getHuffmanCodes, extractCodes]
    apply List.pairwise_append.mpr
    refine ⟨extractCodes_pairwise l _ (by simp), extractCodes_pairwise r _ (by simp), ?_⟩
    intro a ha b hb
    obtain ⟨hpa, _⟩ := extractCodes_extends l ([] ++ [false]) (by simp) a ha
    obtain ⟨hpb, _⟩ := extractCodes_extends r ([] ++ [true]) (by simp) b hb
    exact ⟨cross_no [] false true (by simp) hpa hpb,
      cross_no [] true false (by simp) hpb hpa⟩

theorem getHuffmanCodes_nonempty (t : HTree α) :
    ∀ e ∈ getHuffmanCodes t, e.2 ≠ [] := by
  cases t with
  | leaf s f =>
    intro e he
    simp [getHuffmanCodes, extractCodes] at he
    subst he
    simp
  | node f l r =>
    intro e he
    rw [getHuffmanCodes, extractCodes] at he
    rcases List.mem_append.mp he with h | h
    · exact (extractCodes_extends l ([] ++ [false]) (by simp) e h).2
    · exact (extractCodes_extends r ([] ++ [true]) (by simp) e h).2

theorem getHuffmanCodes_keys (t : HTree α) :
    (getHuffmanCodes t).map Prod.fst = t.syms :=
  extractCodes_keys t []

/-! ## build_huffman_codes: prefix property and completeness -/

theorem buildHuffmanCodes_pairwise (freq : List (α × Nat)) :
    (buildHuffmanCodes freq).Pairwise noOverlap := by
  cases freq with
  | nil => simp [buildHuffmanCodes]
  | cons p1 rest =>
    cases rest with
    | nil => obtain ⟨s, n⟩ := p1; simp [buildHuffmanCodes]
    | cons p2 rest2 =>
      show (match buildLoop ((p1 :: p2 :: rest2).map (fun p : α × Nat => HTree.leaf p.1 p.2)) with
        | t :: _ => extractCodes t []
        | [] => ([] : List (α × List Bool))).Pairwise noOverlap
      cases hb : buildLoop ((p1 :: p2 :: rest2).map (fun p : α × Nat => HTree.leaf p.1 p.2)) with
      | nil => simp
      | cons t ts => exact getHuffmanCodes_pairwise t

theorem buildHuffmanCodes_keys (freq : List (α × Nat)) (h : freq ≠ []) :
    ((buildHuffmanCodes freq).map Prod.fst).Perm (freq.map Prod.fst) := by
  cases freq with
  | nil => exact absurd rfl h
  | cons p1 rest =>
    cases rest with
    | nil => obtain ⟨s, n⟩ := p1; simp [buildHuffmanCodes]
    | cons p2 rest2 =>
      obtain ⟨t, ht, hp⟩ := buildLoop_singleton (p1 :: p2 :: rest2) (by simp)
      show ((match buildLoop ((p1 :: p2 :: rest2).map (fun p : α × Nat => HTree.leaf p.1 p.2)) with
        | t :: _ => extractCodes t []
        | [] => ([] : List (α × List Bool))).map Prod.fst).Perm _
      rw [ht]
      show ((extractCodes t []).map Prod.fst).Perm _
      rw [extractCodes_keys t []]
      exact hp

theorem buildHuffmanCodes_nonempty (freq : List (α × Nat)) :
    ∀ e ∈ buildHuffmanCodes freq, e.2 ≠ [] := by
  cases freq with
  | nil => intro e he; simp [buildHuffmanCodes] at he
  | cons p1 rest =>
    cases rest with
    | nil =>
      obtain ⟨s, n⟩ := p1
      intro e he
      simp [buildHuffmanCodes] at he
      subst he
      simp
    | cons p2 rest2 =>
      intro e he
      have he' : e ∈ (match buildLoop ((p1 :: p2 :: rest2).map (fun p => HTree.leaf p.1 p.2)) with
        | t :: _ => extractCodes t []
        | [] => ([] : List (α × List Bool))) := he
      cases hb : buildLoop ((p1 :: p2 :: rest2).map (fun p => HTree.leaf p.1 p.2)) with
      | nil => rw [hb] at he'; simp at he'
      | cons t ts =>
        rw [hb] at he'
        exact getHuffmanCodes_nonempty t e he'

/-! ## Decode round-trip -/

theorem lookupCode_mem (codes : List (α × List Bool)) (s : α) (c : List Bool)
    (h : lookupCode codes s = some c) : (s, c) ∈ codes := by
  rw [lookupCode] at h
  cases hfind : codes.find? (fun e => decide (e.1 = s)) with
  | none => rw [hfind] at h; simp at h
  | some p =>
    rw [hfind] at h
    simp at h
    have hp := List.mem_of_find?_eq_some hfind
    have hps := List.find?_some hfind
    simp at hps
    have hpe : p = (s, c) := by
      obtain ⟨a, b⟩ := p
      simp at hps h
      simp [hps, h]
    rw [← hpe]
    exact hp

theorem decodeStep_eq (codes : List (α × List Bool)) (hpf : codes.Pairwise noOverlap)
    {s : α} {c : List Bool} (hmem : (s, c) ∈ codes) (hc : c ≠ []) (t : List Bool) :
    decodeStep codes (c ++ t) = some (s, t) := by
  induction codes with
  | nil => simp at hmem
  | cons e rest ih =>
    obtain ⟨s0, c0⟩ := e
    rcases List.mem_cons.mp hmem with heq | hmem'
    · rw [Prod.mk.injEq] at heq
      obtain ⟨h1, h2⟩ := heq
      subst h1; subst h2
      rw [decodeStep, if_pos ⟨hc, List.isPrefixOf_iff_prefix.mpr (List.prefix_append c t)⟩]
      rw [List.drop_left]
    · rw [decodeStep]
      have hpc := List.pairwise_cons.mp hpf
      have hrel : noOverlap (s0, c0) (s, c) := hpc.1 (s, c) hmem'
      rw [if_neg ?hguard]
      case hguard =>
        rintro ⟨hne0, hpre0⟩
        have hp0 : c0 <+: c ++ t := List.isPrefixOf_iff_prefix.mp hpre0
        have hpcc : c <+: c ++ t := List.prefix_append c t
        rcases List.prefix_or_prefix_of_prefix hp0 hpcc with hcase | hcase
        · exact hrel.1 hcase
        · exact hrel.2 hcase
      exact ih hpc.2 hmem'

theorem huffmanEncode_some (codes : List (α × List Bool)) (S : List α)
    (hS : ∀ s ∈ S, s ∈ codes.map Prod.fst) : ∃ e, huffmanEncode S codes = some e := by
  induction S with
  | nil => exact ⟨[], rfl⟩
  | cons s rest ih =>
    obtain ⟨e, he⟩ := ih (fun x hx => hS x (List.mem_cons_of_mem s hx))
    have hmem := hS s (List.mem_cons_self s rest)
    obtain ⟨p, hp, hfst⟩ := List.mem_map.mp hmem
    have hsome : (codes.find? (fun e => decide (e.1 = s))).isSome := by
      rw [List.find?_isSome]
      refine ⟨p, hp, ?_⟩
      simp [hfst]
    obtain ⟨q, hq⟩ := Option.isSome_iff_exists.mp hsome
    refine ⟨q.2 ++ e, ?_⟩
    rw [huffmanEncode, lookupCode, hq]
    simp [he]

theorem encode_length_ge (codes : List (α × List Bool))
    (hne : ∀ e ∈ codes, e.2 ≠ []) :
    ∀ (S : List α) (e : List Bool), huffmanEncode S codes = some e →
      S.length ≤ e.length := by
  intro S
  induction S with
  | nil =>
    intro e h
    rw [huffmanEncode] at h
    simp at h
    subst h
    simp
  | cons s rest ih =>
    intro e h
    rw [huffmanEncode] at h
    cases hl : lookupCode codes s with
    | none => rw [hl] at h; simp at h
    | some c =>
      rw [hl] at h
      cases he : huffmanEncode rest codes with
      | none => rw [he] at h; simp at h
      | some e' =>
        rw [he] at h
        simp at h
        subst h
        have hc : c ≠ [] := hne (s, c) (lookupCode_mem codes s c hl)
        have h1 := ih e' he
        have h2 : 1 ≤ c.length := List.length_pos.mpr hc
        simp [List.length_append]
        omega

theorem decodeAux_roundtrip (codes : List (α × List Bool))
    (hpf : codes.Pairwise noOverlap) (hne : ∀ e ∈ codes, e.2 ≠ []) :
    ∀ (S : List α) (fuel : Nat) (e : List Bool),
      huffmanEncode S codes = some e → S.length ≤ fuel →
      decodeAux codes fuel e = some S := by
  intro S
  induction S with
  | nil =>
    intro fuel e h hf
    rw [huffmanEncode] at h
    simp at h
    subst h
    cases fuel <;> rfl
  | cons s rest ih =>
    intro fuel e h hf
    rw [huffmanEncode] at h
    cases hl : lookupCode codes s with
    | none => rw [hl] at h; simp at h
    | some c =>
      rw [hl] at h
      cases he : huffmanEncode rest codes with
      | none => rw [he] at h; simp at h
      | some e' =>
        rw [he] at h
        simp at h
        subst h
        have hmem := lookupCode_mem codes s c hl
        have hc : c ≠ [] := hne _ hmem
        obtain ⟨f, rfl⟩ : ∃ f, fuel = f + 1 := ⟨fuel - 1, by simp at hf; omega⟩
        have hstep := decodeStep_eq codes hpf hmem hc e'
        cases c with
        | nil => exact absurd rfl hc
        | cons cb cbs =>
          rw [List.cons_append] at hstep
          show decodeAux codes (f + 1) (cb :: (cbs ++ e')) = some (s :: rest)
          rw [decodeAux, hstep]
          show (decodeAux codes f e').map (fun l => s :: l) = some (s :: rest)
          rw [ih f e' he (by simp at hf; omega)]
          rfl

theorem decode_encode (codes : List (α × List Bool))
    (hpf : codes.Pairwise noOverlap) (hne : ∀ e ∈ codes, e.2 ≠ [])
    (S : List α) (e : List Bool) (h : huffmanEncode S codes = some e) :
    decodeTable codes e = some S :=
  decodeAux_roundtrip codes hpf hne S e.length e h (encode_length_ge codes hne S e h)

/-- C1: for every frequency model with at least one distinct symbol, the
Huffman codec round-trips: building the tree succeeds, encoding any symbol
sequence drawn from the model's alphabet succeeds, and decoding the encoding
reproduces the sequence exactly. -/
theorem huffman_roundtrip (freq : List (α × Nat)) (S : List α) (hfreq : freq ≠ [])
    (hS : ∀ s ∈ S, s ∈ freq.map Prod.fst) :
    ∃ t e, buildHuffmanTree freq = some t ∧
      huffmanEncode S (getHuffmanCodes t) = some e ∧
      decodeTable (getHuffmanCodes t) e = some S := by
  obtain ⟨t, ht, hperm⟩ := buildHuffmanTree_some freq hfreq
  have hS' : ∀ s ∈ S, s ∈ (getHuffmanCodes t).map Prod.fst := by
    intro s hs
    rw [getHuffmanCodes_keys]
    exact hperm.mem_iff.mpr (hS s hs)
  obtain ⟨e, he⟩ := huffmanEncode_some _ S hS'
  exact ⟨t, e, ht, he,
    decode_encode _ (getHuffmanCodes_pairwise t) (getHuffmanCodes_nonempty t) S e he⟩

/-- C1 witness: round trip of [1, 0, 1] over the model {0 ↦ 1, 1 ↦ 2}. -/
theorem huffman_roundtrip_witness :
    (([(0, 1), (1, 2)] : List (Nat × Nat)) ≠ [] ∧
      ∀ s ∈ [1, 0, 1], s ∈ ([(0, 1), (1, 2)] : List (Nat × Nat)).map Prod.fst) ∧
    ∃ t e, buildHuffmanTree [(0, 1), (1, 2)] = some t ∧
      huffmanEncode [1, 0, 1] (getHuffmanCodes t) = some e ∧
      decodeTable (getHuffmanCodes t) e = some [1, 0, 1] :=
  ⟨⟨by decide, by decide⟩, huffman_roundtrip [(0, 1), (1, 2)] [1, 0, 1] (by decide) (by decide)⟩

/-- C2: for every non-empty frequency table, build_huffman_codes returns a
code table in which no codeword is a prefix of another and whose keys are
exactly the symbols present in the frequency table. -/
theorem buildHuffmanCodes_spec (freq : List (α × Nat)) (h : freq ≠ []) :
    (buildHuffmanCodes freq).Pairwise noOverlap ∧
    ((buildHuffmanCodes freq).map Prod.fst).Perm (freq.map Prod.fst) :=
  ⟨buildHuffmanCodes_pairwise freq, buildHuffmanCodes_keys freq h⟩

/-- C2 witness: the prefix property and completeness at a concrete table. -/
theorem buildHuffmanCodes_spec_witness :
    (([(5, 2), (7, 3)] : List (Nat × Nat)) ≠ []) ∧
    ((buildHuffmanCodes ([(5, 2), (7, 3)] : List (Nat × Nat))).Pairwise noOverlap ∧
      ((buildHuffmanCodes ([(5, 2), (7, 3)] : List (Nat × Nat))).map Prod.fst).Perm
        (([(5, 2), (7, 3)] : List (Nat × Nat)).map Prod.fst)) :=
  ⟨by decide, buildHuffmanCodes_spec [(5, 2), (7, 3)] (by decide)⟩

/-! ## Concrete scenarios and degenerate inputs -/

/-- C6: on input "HTHT" the pipeline yields transition stream [1,1,1] (all
alternations), one run of value 1 and length 3, the single-symbol Huffman
code "0", encoded size 3 bits (1 first-symbol bit + 1 first-run-type bit +
1 code bit), compression ratio 3/4 and savings 25%; on input "HHHH"
(transition stream [0,0,0], one run of value 0 and length 3) the resulting
bit counts are numerically identical. -/
theorem concrete_scenarios_spec :
    toTransitions ['H', 'T', 'H', 'T'] = [true, true, true] ∧
    getRuns (toTransitions ['H', 'T', 'H', 'T']) = [(true, 3)] ∧
    buildHuffmanCodes (counter ((getRuns (toTransitions ['H', 'T', 'H', 'T'])).map Prod.snd)) =
      [(3, [false])] ∧
    analyzeCompression ['H', 'T', 'H', 'T'] = some (3, 3/4, 25) ∧
    toTransitions ['H', 'H', 'H', 'H'] = [false, false, false] ∧
    getRuns (toTransitions ['H', 'H', 'H', 'H']) = [(false, 3)] ∧
    analyzeCompression ['H', 'H', 'H', 'H'] = some (3, 3/4, 25) := by
  refine ⟨by decide, by decide, by decide, ?_, by decide, by decide, ?_⟩
  · have h : analyzeCompression ['H', 'T', 'H', 'T'] =
        some (3, 3/4, (1 - (3 : ℚ)/4) * 100) := rfl
    rw [h]
    norm_num
  · have h : analyzeCompression ['H', 'H', 'H', 'H'] =
        some (3, 3/4, (1 - (3 : ℚ)/4) * 100) := rfl
    rw [h]
    norm_num

/-- C7 (code bug): for an input of length ≤ 1 the transition stream is
indeed empty, but both analysis drivers then fail (ZeroDivisionError while
computing the alternation rate of the empty transition stream, embedded as
`none`) instead of treating the empty stream as already-optimal; evaluated
at the failing input "H". -/
theorem short_input_bug :
    toTransitions ['H'] = [] ∧ toTransitions ([] : List Char) = [] ∧
    analyzeCompression ['H'] = none ∧ analyzeSequence ['H'] = none := by
  decide

/-- C8 counterexample: a frequency model with zero distinct symbols does not
fail with a typed error: build_huffman_codes returns an (empty) code table,
contradicting "it never returns an empty or placeholder code table". -/
theorem emptyFreq_counterexample :
    buildHuffmanCodes ([] : List (Nat × Nat)) = [] := rfl

/-- C8 (amended): on a frequency model with zero distinct symbols the code
builders return placeholder values rather than failing: build_huffman_codes
returns the empty code table and build_huffman_tree returns no tree (None). -/
theorem emptyFreq_behavior :
    buildHuffmanCodes ([] : List (Nat × Nat)) = [] ∧
    buildHuffmanTree ([] : List (Nat × Nat)) = none :=
  ⟨rfl, rfl⟩
